import Mathlib

/-!
Verification of the lrpar error-recovery engine (`cpctplus.rs`, `corchuelo.rs`)
against its natural-language specification.

The Rust sources are shallowly embedded: the persistent (cactus) stacks become
Lean lists with the top element at the head, the nested
`Cactus<RepairMerge>` repair history becomes the mutual inductive family
`Hist` / `HistList` below, `u32` arithmetic with `checked_add` is modelled on
`Nat` with an explicit `2^32` bound, and a Rust panic (`unwrap` of a failed
checked addition, `unreachable!`) is modelled as `Option.none`.  External
collaborators (the LR tables, the lexeme stream, the `lr`/`lr_cactus` step
primitive, `term_cost`) are fields of a parser record, mirroring the interface
the recoverers consume.
-/

namespace Lrpar

/-- Terminal index into the grammar's terminal table (`TIdx`). -/
abbrev TIdx := Nat

/-- State index into the LR automaton's state table (`StIdx`). -/
abbrev StIdx := Nat

/-- LR table actions (`lrtable::Action`). -/
inductive Action where
  | Shift (st : StIdx)
  | Reduce (pidx : Nat)
  | Accept
deriving DecidableEq, Repr

/-- `PARSE_AT_LEAST` (N in Corchuelo et al.). -/
def PARSE_AT_LEAST : Nat := 3

/-- `PORTION_THRESHOLD` (N_t in Corchuelo et al., baseline only). -/
def PORTION_THRESHOLD : Nat := 10

/-- `INSERT_THRESHOLD` (N_i in Corchuelo et al., baseline only). -/
def INSERT_THRESHOLD : Nat := 4

/-- `DELETE_THRESHOLD` (N_d in Corchuelo et al., baseline only). -/
def DELETE_THRESHOLD : Nat := 3

/-! ## CPCT+ data model (`cpctplus.rs`) -/

/-- `cpctplus.rs` `enum Repair`. -/
inductive Repair where
  | InsertTerm (t : TIdx)
  | Delete
  | Shift
deriving DecidableEq, Repr

-- `cpctplus.rs` `enum RepairMerge` together with its two levels of `Cactus`
-- nesting: `Hist` models `Cactus<RepairMerge>` (head = top of the cactus) and
-- `HistList` models `Cactus<Cactus<RepairMerge>>`.
mutual
/-- The `RepairMerge` variant type of `cpctplus.rs`. -/
inductive RepairMerge where
  | Repair (r : Repair)
  | Merge (r : Repair) (alts : HistList)
  | Terminator

/-- A repair history: `Cactus<RepairMerge>`, head = top. -/
inductive Hist where
  | nil
  | cons (rm : RepairMerge) (tl : Hist)

/-- A set of alternative histories: `Cactus<Cactus<RepairMerge>>`. -/
inductive HistList where
  | nil
  | cons (h : Hist) (tl : HistList)
end

/-- `cpctplus.rs` `struct PathFNode`.  `pstack` is a `Cactus<StIdx>`, embedded
as a list with the top of the stack at the head. -/
structure PathFNode where
  pstack : List StIdx
  la_idx : Nat
  repairs : Hist
  cf : Nat

/-- `PathFNode::last_repair`: the underlying `Repair` of the top history
entry (`None` for `Terminator`; an empty history cannot arise, the root is
always a `Terminator` node). -/
def lastRepairH : Hist → Option Repair
  | .cons (.Repair r) _ => some r
  | .cons (.Merge r _) _ => some r
  | .cons .Terminator _ => none
  | .nil => none

/-- The `num_shifts` closure inside `PartialEq for PathFNode`: the number of
trailing `Shift` repairs at the top of a history, counting both plain `Shift`
entries and `Merge(Shift, _)` entries and stopping at the first entry that is
neither. -/
def numShiftsH : Hist → Nat
  | .cons (.Repair .Shift) tl => numShiftsH tl + 1
  | .cons (.Merge .Shift _) tl => numShiftsH tl + 1
  | _ => 0

/-- `PartialEq for PathFNode` (the CPCT+ merge-compatibility equivalence). -/
def eqPathFNode (a b : PathFNode) : Bool :=
  if a.la_idx ≠ b.la_idx ∨ a.pstack ≠ b.pstack then
    false
  else
    match lastRepairH a.repairs, lastRepairH b.repairs with
    | some .Delete, some .Delete => numShiftsH a.repairs == numShiftsH b.repairs
    | some .Delete, _ => false
    | _, some .Delete => false
    | _, _ => numShiftsH a.repairs == numShiftsH b.repairs

/-- `Hash for PathFNode`: the data fed to the hasher is exactly the `pstack`
and the `la_idx`; the repair history and the cost are not hashed. -/
def nodeHash (n : PathFNode) : List StIdx × Nat :=
  (n.pstack, n.la_idx)

/-- A history ends in a `Delete` repair. -/
def endsDelete (h : Hist) : Prop := lastRepairH h = some Repair.Delete

/-! ## C1: the merge equivalence -/

/-- C1: two CPCT+ search nodes are equal under the merge equivalence
(`PartialEq for PathFNode`) iff they have the same `pstack`, the same
`la_idx`, the same number of trailing `Shift` repairs (counting `Shift` and
`Merge(Shift, _)` entries, stopping at the first non-shift), and either both
histories end in a `Delete` repair or neither does. -/
theorem c1_eq_iff (a b : PathFNode) :
    eqPathFNode a b = true ↔
      a.pstack = b.pstack ∧ a.la_idx = b.la_idx ∧
      numShiftsH a.repairs = numShiftsH b.repairs ∧
      (endsDelete a.repairs ↔ endsDelete b.repairs) := by
  unfold eqPathFNode endsDelete
  by_cases hla : a.la_idx = b.la_idx
  · by_cases hps : a.pstack = b.pstack
    · simp only [hla, hps, ne_eq, not_true_eq_false, false_or, if_false]
      rcases hra : lastRepairH a.repairs with _ | ra <;>
        rcases hrb : lastRepairH b.repairs with _ | rb
      · simp [beq_iff_eq]
      · cases rb <;> simp [beq_iff_eq]
      · cases ra <;> simp [beq_iff_eq]
      · cases ra <;> cases rb <;> simp [beq_iff_eq]
    · simp [hps]
  · simp [hla]

/-! ## C8: hashing is consistent with and coarser than the equivalence -/

/-- C8: the hash of a CPCT+ search node is computed from its `pstack` and
`la_idx` only (`nodeHash`), hence any two nodes equal under the merge
equivalence have equal hashes. -/
theorem c8_hash_consistent (a b : PathFNode) (h : eqPathFNode a b = true) :
    nodeHash a = nodeHash b := by
  rcases (c1_eq_iff a b).mp h with ⟨hps, hla, -, -⟩
  simp [nodeHash, hps, hla]

/-- Witness for C8 at concrete nodes: two nodes differing only in cost and
repair history (both ending in one shift) are equivalent and hash equal. -/
theorem c8_hash_consistent_witness :
    nodeHash ⟨[0, 1], 2, .cons (.Repair .Shift) (.cons .Terminator .nil), 0⟩ =
      nodeHash ⟨[0, 1], 2,
        .cons (.Repair .Shift) (.cons (.Repair .Delete) (.cons .Terminator .nil)), 5⟩ :=
  c8_hash_consistent _ _ (by decide)

/-! ## CPCT+ parser interface and successor operators -/

/-- A lexeme: token kind, start offset, length (`lrlex::Lexeme`).  Length 0 is
reserved for synthesised (inserted) lexemes. -/
structure CLexeme where
  tok : TIdx
  start : Nat
  len : Nat
deriving DecidableEq, Repr

/-- The interface `CPCTPlus` consumes from the parser host (`parser.rs` is
out of scope; these are its fields/methods as used by `cpctplus.rs`).
`term_cost` is the host cost function viewed as a `u32` value. -/
structure CParser where
  eof_term_idx : TIdx
  state_actions : StIdx → List TIdx
  next_lexeme : Nat → CLexeme
  next_tidx : Nat → TIdx
  lr_cactus : Option CLexeme → Nat → Nat → List StIdx → Nat × List StIdx
  term_cost : TIdx → Nat
  lexemes_len : Nat
  action : StIdx → TIdx → Option Action

/-- `u32::checked_add`: `none` models the arithmetic-overflow panic taken by
`checked_add(..).unwrap()`. -/
def checkedAdd (a b : Nat) : Option Nat :=
  if a + b < 4294967296 then some (a + b) else none

/-- The loop body of `CPCTPlus::insert` over the remaining terminals of
`state_actions`; `none` propagates the cost-overflow panic. -/
def insertGo (p : CParser) (n : PathFNode) : List TIdx → Option (List (Nat × PathFNode))
  | [] => some []
  | t :: ts =>
    if t = p.eof_term_idx then insertGo p n ts
    else
      let next_lexeme := p.next_lexeme n.la_idx
      let new_lexeme : CLexeme := ⟨t, next_lexeme.start, 0⟩
      let res := p.lr_cactus (some new_lexeme) n.la_idx (n.la_idx + 1) n.pstack
      if res.1 > n.la_idx then
        match checkedAdd n.cf (p.term_cost t) with
        | none => none
        | some cf' =>
          match insertGo p n ts with
          | none => none
          | some rest =>
            some ((cf', ⟨res.2, n.la_idx,
                         .cons (.Repair (.InsertTerm t)) n.repairs, cf'⟩) :: rest)
      else insertGo p n ts

/-- `CPCTPlus::insert` (ER1): one successor per terminal with a defined action
in the current state (except EOF) whose injection lets the automaton advance
the lookahead; the successor pays `term_cost` of the inserted terminal. -/
def insert (p : CParser) (n : PathFNode) : Option (List (Nat × PathFNode)) :=
  insertGo p n (p.state_actions (n.pstack.headD 0))

/-- `CPCTPlus::delete` (ER2): drop the current lexeme, paying its
`term_cost`; no successor at end of input. -/
def delete (p : CParser) (n : PathFNode) : Option (List (Nat × PathFNode)) :=
  if n.la_idx = p.lexemes_len then some []
  else
    let la_tidx := p.next_tidx n.la_idx
    let cost := p.term_cost la_tidx
    match checkedAdd n.cf cost with
    | none => none
    | some cf' =>
      some [(cf', ⟨n.pstack, n.la_idx + 1, .cons (.Repair .Delete) n.repairs, cf'⟩)]

/-- `CPCTPlus::shift` (ER3, KimYi shift-by-one variant): run the LR step
primitive over the window `[la_idx, la_idx+1)`; admit the successor iff the
stack changed, appending `Shift` iff the lookahead advanced. -/
def shift (p : CParser) (n : PathFNode) : List (Nat × PathFNode) :=
  let la_idx := n.la_idx
  let res := p.lr_cactus none la_idx (la_idx + 1) n.pstack
  if n.pstack ≠ res.2 then
    let n_repairs :=
      if res.1 > la_idx then Hist.cons (.Repair .Shift) n.repairs else n.repairs
    [(n.cf, ⟨res.2, res.1, n_repairs, n.cf⟩)]
  else []

/-! ## C2: the shift rule -/

/-- C2: the CPCT+ shift rule produces at most one successor; one is produced
iff the LR step over `[la_idx, la_idx+1)` yields a stack different from the
node's; the history gains one `Shift` iff the lookahead advanced, and the
successor's cost `cf` equals the node's. -/
theorem c2_shift (p : CParser) (n : PathFNode) :
    (shift p n).length ≤ 1 ∧
    (shift p n ≠ [] ↔ (p.lr_cactus none n.la_idx (n.la_idx + 1) n.pstack).2 ≠ n.pstack) ∧
    (∀ c m, (c, m) ∈ shift p n →
      m.pstack = (p.lr_cactus none n.la_idx (n.la_idx + 1) n.pstack).2 ∧
      m.la_idx = (p.lr_cactus none n.la_idx (n.la_idx + 1) n.pstack).1 ∧
      m.cf = n.cf ∧ c = n.cf ∧
      m.repairs = if (p.lr_cactus none n.la_idx (n.la_idx + 1) n.pstack).1 > n.la_idx
                  then Hist.cons (.Repair .Shift) n.repairs else n.repairs) := by
  refine ⟨?_, ?_, ?_⟩
  · unfold shift; dsimp only; split <;> simp
  · unfold shift; dsimp only; split
    · rename_i h; simp [h, Ne.symm h]
    · rename_i h; push_neg at h; simp [← h]
  · intro c m hm
    unfold shift at hm
    dsimp only at hm
    split at hm
    · have h := List.mem_singleton.mp hm
      have hc : c = n.cf := congrArg Prod.fst h
      have hmv := congrArg Prod.snd h
      simp only at hmv
      subst hmv
      simp [hc]
    · simp at hm

/-- A concrete parser whose LR step always shifts one token onto the
stack. -/
def cShiftParser : CParser :=
  ⟨0, fun _ => [], fun _ => ⟨0, 0, 0⟩, fun _ => 0,
   fun _ la _ st => (la + 1, 7 :: st), fun _ => 1, 3, fun _ _ => none⟩

/-- Witness for C2: at a concrete parser whose step changes the stack and
advances the lookahead, the unique successor keeps the node's cost. -/
theorem c2_shift_witness :
    (PathFNode.mk [7, 0] 1
        (.cons (.Repair .Shift) (.cons .Terminator .nil)) 0).cf =
      (PathFNode.mk [0] 0 (.cons .Terminator .nil) 0).cf :=
  ((c2_shift cShiftParser (PathFNode.mk [0] 0 (.cons .Terminator .nil) 0)).2.2 0 _
    (List.mem_singleton.mpr rfl)).2.2.1

/-! ## C9: checked cost arithmetic -/

/-- C9: CPCT+ cost accumulation uses checked `u32` addition: `checkedAdd`
yields `none` (the program aborts) exactly when the sum overflows `u32`, the
delete rule aborts when its addition overflows, and whenever every possible
cost increment keeps the node's cost sum below `2^32` the abort branch is
unreachable in both the insert and delete rules. -/
theorem c9_checked_cost (p : CParser) (n : PathFNode) :
    (∀ a b, checkedAdd a b = none ↔ 4294967296 ≤ a + b) ∧
    (n.la_idx ≠ p.lexemes_len →
      4294967296 ≤ n.cf + p.term_cost (p.next_tidx n.la_idx) →
      delete p n = none) ∧
    ((∀ t, n.cf + p.term_cost t < 4294967296) →
      insert p n ≠ none ∧ delete p n ≠ none) := by
  refine ⟨fun a b => ?_, fun hne hof => ?_, fun hbound => ⟨?_, ?_⟩⟩
  · unfold checkedAdd
    split <;> simp <;> omega
  · unfold delete
    rw [if_neg hne]
    have : checkedAdd n.cf (p.term_cost (p.next_tidx n.la_idx)) = none := by
      unfold checkedAdd; rw [if_neg (by omega)]
    simp [this]
  · unfold insert
    generalize p.state_actions (n.pstack.headD 0) = ts
    induction ts with
    | nil => simp [insertGo]
    | cons t ts ih =>
      unfold insertGo
      have hsome : checkedAdd n.cf (p.term_cost t) = some (n.cf + p.term_cost t) := by
        unfold checkedAdd; rw [if_pos (hbound t)]
      simp only [hsome]
      split
      · exact ih
      · split
        · rcases h : insertGo p n ts with _ | rest
          · exact absurd h ih
          · simp [h]
        · exact ih
  · unfold delete
    split
    · simp
    · have hsome : checkedAdd n.cf (p.term_cost (p.next_tidx n.la_idx)) =
          some (n.cf + p.term_cost (p.next_tidx n.la_idx)) := by
        unfold checkedAdd; rw [if_pos (hbound _)]
      simp [hsome]

/-- Witness for C9: with unit costs and zero accumulated cost, neither the
insert nor the delete rule can hit the overflow abort. -/
theorem c9_checked_cost_witness :
    insert cShiftParser (PathFNode.mk [0] 0 (.cons .Terminator .nil) 0) ≠ none ∧
    delete cShiftParser (PathFNode.mk [0] 0 (.cons .Terminator .nil) 0) ≠ none :=
  (c9_checked_cost cShiftParser (PathFNode.mk [0] 0 (.cons .Terminator .nil) 0)).2.2
    (fun t => by show (0 : Nat) + 1 < 4294967296; decide)

/-! ## Merging and reachability -/

-- Structural (Bool) equality on histories, used by the `old.repairs ==
-- new.repairs` guard of the merge callback.
mutual
/-- Structural equality of `RepairMerge` values (Rust `PartialEq`, derived). -/
def beqRM : RepairMerge → RepairMerge → Bool
  | .Repair a, .Repair b => a == b
  | .Merge a v, .Merge b w => a == b && beqAlts v w
  | .Terminator, .Terminator => true
  | _, _ => false

/-- Structural equality of histories (Rust `PartialEq` on `Cactus`). -/
def beqHist : Hist → Hist → Bool
  | .nil, .nil => true
  | .cons a t, .cons b u => beqRM a b && beqHist t u
  | _, _ => false

/-- Structural equality of history lists. -/
def beqAlts : HistList → HistList → Bool
  | .nil, .nil => true
  | .cons a t, .cons b u => beqHist a b && beqAlts t u
  | _, _ => false
end

/-- The merge callback passed to `dijkstra` by `CPCTPlus::recover`: fold the
newly discovered node's history into a `Merge` at the top of the old node's
history (identical histories are not re-merged); `none` models the
`unreachable!()` panic when the old history tops with a `Terminator`. -/
def mergeNodes (old other : PathFNode) : Option PathFNode :=
  if beqHist old.repairs other.repairs then some old
  else
    match old.repairs with
    | .cons (.Repair r) tl =>
        some { old with repairs := .cons (.Merge r (.cons other.repairs .nil)) tl }
    | .cons (.Merge r v) tl =>
        some { old with repairs := .cons (.Merge r (.cons other.repairs v)) tl }
    | _ => none

/-- The start node built by `CPCTPlus::recover` (history = a bare
`Terminator`, cost 0). -/
def startNode (pstack : List StIdx) (la_idx : Nat) : PathFNode :=
  ⟨pstack, la_idx, .cons .Terminator .nil, 0⟩

/-- Nodes reachable in the CPCT+ search from the start node, mirroring the
`expand` closure of `CPCTPlus::recover` (insert successors are generated only
when the last repair is not a `Delete`) and the merge callback (invoked on
re-discovery of an equivalent node of equal cost). -/
inductive Reach (p : CParser) (la0 : Nat) (st0 : List StIdx) : PathFNode → Prop where
  | start : Reach p la0 st0 (startNode st0 la0)
  | insertStep {n : PathFNode} {nbrs c n'} : Reach p la0 st0 n →
      lastRepairH n.repairs ≠ some .Delete →
      insert p n = some nbrs → (c, n') ∈ nbrs → Reach p la0 st0 n'
  | deleteStep {n : PathFNode} {nbrs c n'} : Reach p la0 st0 n →
      delete p n = some nbrs → (c, n') ∈ nbrs → Reach p la0 st0 n'
  | shiftStep {n : PathFNode} {c n'} : Reach p la0 st0 n →
      (c, n') ∈ shift p n → Reach p la0 st0 n'
  | mergeStep {old other m : PathFNode} : Reach p la0 st0 old →
      Reach p la0 st0 other →
      eqPathFNode old other = true → other.cf = old.cf →
      mergeNodes old other = some m → Reach p la0 st0 m

/-! ## The repair spine and semantic cost replay -/

/-- The underlying repair of a history entry (`Merge` counts as its repair). -/
def spineRM : RepairMerge → Option Repair
  | .Repair r => some r
  | .Merge r _ => some r
  | .Terminator => none

/-- Top-down list of the underlying repairs along a history's spine. -/
def spineTD : Hist → List Repair
  | .nil => []
  | .cons rm tl =>
    match spineRM rm with
    | some r => r :: spineTD tl
    | none => spineTD tl

/-- Root-to-top list of the underlying repairs along a history's spine. -/
def spineList (h : Hist) : List Repair := (spineTD h).reverse

/-- One step of semantic replay: an `Insert` pays `term_cost` of the inserted
terminal and keeps the lookahead; a `Delete` pays `term_cost` of the lexeme
currently under the lookahead and advances it; a `Shift` is free and advances
the lookahead. -/
def replayStep (p : CParser) (s : Nat × Nat) (r : Repair) : Nat × Nat :=
  match r with
  | .InsertTerm t => (s.1, s.2 + p.term_cost t)
  | .Delete => (s.1 + 1, s.2 + p.term_cost (p.next_tidx s.1))
  | .Shift => (s.1 + 1, s.2)

/-- Semantic lookahead index and accumulated cost of a root-to-top repair
sequence replayed from lookahead `la0` with cost 0. -/
def replayCost (p : CParser) (la0 : Nat) (rs : List Repair) : Nat × Nat :=
  rs.foldl (replayStep p) (la0, 0)

lemma checkedAdd_eq {a b c : Nat} (h : checkedAdd a b = some c) : c = a + b := by
  unfold checkedAdd at h
  split at h
  · exact (Option.some.injEq .. ▸ h).symm
  · cases h

lemma insertGo_mem {p : CParser} {n : PathFNode} {ts nbrs c n'}
    (h : insertGo p n ts = some nbrs) (hm : (c, n') ∈ nbrs) :
    ∃ t, checkedAdd n.cf (p.term_cost t) = some c ∧
      n'.la_idx = n.la_idx ∧ n'.cf = c ∧
      n'.repairs = .cons (.Repair (.InsertTerm t)) n.repairs := by
  induction ts generalizing nbrs with
  | nil =>
    unfold insertGo at h
    cases h
    cases hm
  | cons t ts ih =>
    unfold insertGo at h
    split at h
    · exact ih h hm
    · dsimp only at h
      split at h
      · split at h
        · cases h
        · rename_i cf' hca
          split at h
          · cases h
          · rename_i rest hrest
            cases h
            rcases List.mem_cons.mp hm with hhd | htl
            · have hc : c = cf' := congrArg Prod.fst hhd
              have hn' := congrArg Prod.snd hhd
              simp only at hn'
              subst hn'
              exact ⟨t, hc ▸ hca, rfl, hc.symm, rfl⟩
            · exact ih hrest htl
      · exact ih h hm

lemma delete_mem {p : CParser} {n : PathFNode} {nbrs c n'}
    (h : delete p n = some nbrs) (hm : (c, n') ∈ nbrs) :
    n.la_idx ≠ p.lexemes_len ∧
    checkedAdd n.cf (p.term_cost (p.next_tidx n.la_idx)) = some c ∧
    n'.la_idx = n.la_idx + 1 ∧ n'.cf = c ∧ n'.pstack = n.pstack ∧
    n'.repairs = .cons (.Repair .Delete) n.repairs := by
  unfold delete at h
  split at h
  · cases h; cases hm
  · rename_i hne
    dsimp only at h
    split at h
    · cases h
    · rename_i cf' hca
      cases h
      rcases List.mem_singleton.mp hm with hhd
      have hc : c = cf' := congrArg Prod.fst hhd
      have hn' := congrArg Prod.snd hhd
      simp only at hn'
      subst hn'
      exact ⟨hne, hc ▸ hca, rfl, hc.symm, rfl, rfl⟩

lemma shift_mem {p : CParser} {n : PathFNode} {c n'}
    (hm : (c, n') ∈ shift p n) :
    c = n.cf ∧ n'.cf = n.cf ∧
    n'.la_idx = (p.lr_cactus none n.la_idx (n.la_idx + 1) n.pstack).1 ∧
    n'.repairs = if (p.lr_cactus none n.la_idx (n.la_idx + 1) n.pstack).1 > n.la_idx
                 then Hist.cons (.Repair .Shift) n.repairs else n.repairs := by
  unfold shift at hm
  dsimp only at hm
  split at hm
  · rcases List.mem_singleton.mp hm with hhd
    have hc : c = n.cf := congrArg Prod.fst hhd
    have hn' := congrArg Prod.snd hhd
    simp only at hn'
    subst hn'
    exact ⟨hc, rfl, rfl, rfl⟩
  · cases hm

lemma mergeNodes_fields {old other m : PathFNode} (h : mergeNodes old other = some m) :
    m.la_idx = old.la_idx ∧ m.cf = old.cf ∧ m.pstack = old.pstack ∧
    spineTD m.repairs = spineTD old.repairs := by
  unfold mergeNodes at h
  split at h
  · cases h
    exact ⟨rfl, rfl, rfl, rfl⟩
  · split at h
    · rename_i r tl heq
      cases h
      refine ⟨rfl, rfl, rfl, ?_⟩
      rw [heq]
      simp [spineTD, spineRM]
    · rename_i r v tl heq
      cases h
      refine ⟨rfl, rfl, rfl, ?_⟩
      rw [heq]
      simp [spineTD, spineRM]
    · cases h

lemma spineList_cons_repair (r : Repair) (h : Hist) :
    spineList (.cons (.Repair r) h) = spineList h ++ [r] := by
  simp [spineList, spineTD, spineRM]

lemma replayCost_snoc (p : CParser) (la0 : Nat) (rs : List Repair) (r : Repair) :
    replayCost p la0 (rs ++ [r]) = replayStep p (replayCost p la0 rs) r := by
  simp [replayCost, List.foldl_append]

/-! ## C3: the cost invariant -/

/-- C3: for every node reachable from the CPCT+ start node — assuming the LR
step primitive honours its contract of never moving the lookahead backwards
nor past the requested one-token window — the accumulated cost `cf` equals
the sum of `term_cost` over every `Insert` in the node's repair history plus
`term_cost` of the lexeme deleted for every `Delete` in it (as computed by
semantic replay of the history, which also reproduces `la_idx`); the start
node has `cf = 0`, and shift/reduce successors leave `cf` unchanged. -/
theorem c3_cost_invariant (p : CParser) (la0 : Nat) (st0 : List StIdx)
    (hlr : ∀ inj la st, la ≤ (p.lr_cactus inj la (la + 1) st).1 ∧
                        (p.lr_cactus inj la (la + 1) st).1 ≤ la + 1) :
    (startNode st0 la0).cf = 0 ∧
    (∀ n c n', (c, n') ∈ shift p n → n'.cf = n.cf) ∧
    (∀ n, Reach p la0 st0 n →
      replayCost p la0 (spineList n.repairs) = (n.la_idx, n.cf)) := by
  refine ⟨rfl, fun n c n' hm => (shift_mem hm).2.1, fun n hn => ?_⟩
  induction hn with
  | start => simp [startNode, spineList, spineTD, spineRM, replayCost]
  | insertStep hn hnd hins hm ih =>
    obtain ⟨t, hca, hla, hcf, hrep⟩ := insertGo_mem hins hm
    rw [hrep, spineList_cons_repair, replayCost_snoc, ih]
    simp [replayStep, hla, hcf, checkedAdd_eq hca]
  | deleteStep hn hdel hm ih =>
    obtain ⟨-, hca, hla, hcf, -, hrep⟩ := delete_mem hdel hm
    rw [hrep, spineList_cons_repair, replayCost_snoc, ih]
    simp [replayStep, hla, hcf, checkedAdd_eq hca]
  | shiftStep hn hm ih =>
    rename_i n c n'
    obtain ⟨-, hcf, hla, hrep⟩ := shift_mem hm
    obtain ⟨hlo, hhi⟩ := hlr none n.la_idx n.pstack
    by_cases hadv : (p.lr_cactus none n.la_idx (n.la_idx + 1) n.pstack).1 > n.la_idx
    · rw [hrep, if_pos hadv, spineList_cons_repair, replayCost_snoc, ih]
      have : (p.lr_cactus none n.la_idx (n.la_idx + 1) n.pstack).1 = n.la_idx + 1 := by
        omega
      simp [replayStep, hla, hcf, this]
    · rw [hrep, if_neg hadv, ih]
      have : (p.lr_cactus none n.la_idx (n.la_idx + 1) n.pstack).1 = n.la_idx := by
        omega
      rw [hla, this, hcf]
  | mergeStep hold hother heq hcf hmrg iho ihw =>
    obtain ⟨hla, hcf', -, hsp⟩ := mergeNodes_fields hmrg
    rw [spineList, hsp, ← spineList, iho, hla, hcf']

/-- Witness for C3: with an LR primitive that never advances, the invariant
instantiates at the start node. -/
theorem c3_cost_invariant_witness :
    letI p : CParser :=
      ⟨0, fun _ => [], fun _ => ⟨0, 0, 0⟩, fun _ => 0,
       fun _ la _ st => (la, st), fun _ => 1, 3, fun _ _ => none⟩
    replayCost p 0 (spineList (startNode [0] 0).repairs) =
      ((startNode [0] 0).la_idx, (startNode [0] 0).cf) :=
  (c3_cost_invariant _ 0 [0]
      (fun _ la _ => ⟨Nat.le_refl la, Nat.le_succ la⟩)).2.2 _ Reach.start

/-! ## Baseline Corchuelo recoverer (`corchuelo.rs`) -/

/-- The `ParseRepair` variant of the `corchuelo.rs` snapshot (struct variant
`Insert{term_idx}`; no `InsertSeq` in this snapshot). -/
inductive BRepair where
  | Insert (term_idx : TIdx)
  | Delete
  | Shift
deriving DecidableEq, Repr

/-- A grammar symbol as yielded by the baseline's `state_actions`. -/
inductive Sym where
  | Term (t : TIdx)
  | Nonterm (ridx : Nat)
deriving DecidableEq, Repr

/-- The baseline's parse stack (`PStack = Vec<StIdx>`, top = last). -/
abbrev PStack := List StIdx

/-- The baseline's tree stack; its nodes are opaque to the recoverer. -/
abbrev TStack := List Nat

/-- A lexeme for the baseline snapshot. -/
structure BLexeme where
  tok : TIdx
  start : Nat
  len : Nat
deriving DecidableEq, Repr

/-- The interface the baseline `recover` consumes from the parser host
(`parser.rs` is out of scope).  `lr` is the mutating LR step primitive,
embedded as a function returning the new lookahead index and the new
stacks. -/
structure BParser where
  eof_term_idx : TIdx
  state_actions : StIdx → List Sym
  next_lexeme : Nat → BLexeme × TIdx
  lr : Option BLexeme → Nat → Option Nat → PStack → TStack → Nat × PStack × TStack
  action : StIdx → TIdx → Option Action
  lexemes_len : Nat

/-- A BFS frontier tuple `(la_idx, pstack, tstack, repairs)`; the same shape
also stores finished entries `(pstack, tstack, new_la_idx, repairs)`. -/
structure BItem where
  la_idx : Nat
  pstack : PStack
  tstack : TStack
  repairs : List BRepair
deriving DecidableEq, Repr

/-- `corchuelo.rs` `score`: count of `Insert` plus `Delete` repairs (shifts
are free). -/
def score (repairs : List BRepair) : Nat :=
  repairs.foldl
    (fun count r =>
      match r with
      | .Insert _ => count + 1
      | .Delete => count + 1
      | .Shift => count) 0

/-- The state of the baseline BFS loop: the `todo` queue, the `finished`
list, and the best finisher score observed so far. -/
structure BState where
  todo : List BItem
  finished : List BItem
  finished_score : Option Nat
deriving DecidableEq, Repr

/-- The prune test at the top of the baseline loop:
`finished_score.is_some() && finished_score.unwrap() < score(&repairs)`. -/
def pruneTest (fs : Option Nat) (repairs : List BRepair) : Bool :=
  match fs with
  | some b => decide (b < score repairs)
  | none => false

/-- Insertion rule ER1 of the baseline `recover`: skipped entirely when the
last repair is a `Delete`; otherwise, when the insert count is within
`INSERT_THRESHOLD`, one new tuple per terminal with a defined action (except
EOF) whose injection advances the lookahead. -/
def er1 (p : BParser) (it : BItem) : List BItem :=
  match it.repairs.getLast? with
  | some BRepair.Delete => []
  | _ =>
    let num_inserts :=
      (it.repairs.filter fun r =>
        match r with | .Insert _ => true | _ => false).length
    if num_inserts ≤ INSERT_THRESHOLD then
      (p.state_actions (it.pstack.getLastD 0)).filterMap fun sym =>
        match sym with
        | .Term term_idx =>
          if term_idx = p.eof_term_idx then none
          else
            let next_lexeme := (p.next_lexeme it.la_idx).1
            let new_lexeme : BLexeme := ⟨term_idx, next_lexeme.start, 0⟩
            let res := p.lr (some new_lexeme) it.la_idx (some (it.la_idx + 1))
                         it.pstack it.tstack
            if res.1 > it.la_idx then
              some ⟨it.la_idx, res.2.1, res.2.2, it.repairs ++ [.Insert term_idx]⟩
            else none
        | .Nonterm _ => none
    else []

/-- Deletion rule ER2 of the baseline `recover`: when lookahead remains and
the delete count is within `DELETE_THRESHOLD`, one tuple with the lookahead
advanced and a `Delete` appended. -/
def er2 (p : BParser) (it : BItem) : List BItem :=
  if it.la_idx < p.lexemes_len then
    let num_deletes :=
      (it.repairs.filter fun r =>
        match r with | .Delete => true | _ => false).length
    if num_deletes ≤ DELETE_THRESHOLD then
      [⟨it.la_idx + 1, it.pstack, it.tstack, it.repairs ++ [.Delete]⟩]
    else []
  else []

/-- Outcome of the forward-move rule ER3. -/
inductive ER3 where
  | drop
  | enqueue (it : BItem)
  | finish (it : BItem)
deriving DecidableEq, Repr

/-- Forward-move rule ER3 of the baseline `recover`: run the LR primitive
over the window `[la_idx, la_idx + PARSE_AT_LEAST)`; discard when progress
reaches `PORTION_THRESHOLD` past the original error; append one `Shift` per
consumed lexeme; a finisher parsed `PARSE_AT_LEAST` symbols or faces an
`Accept` action; non-finishers facing a defined non-Accept action are
discarded (the `continue`), and otherwise are re-enqueued iff they made
strictly positive progress. -/
def er3 (p : BParser) (in_la_idx : Nat) (it : BItem) : ER3 :=
  let res := p.lr none it.la_idx (some (it.la_idx + PARSE_AT_LEAST))
               it.pstack it.tstack
  if res.1 < in_la_idx + PORTION_THRESHOLD then
    let n_repairs := it.repairs ++ List.replicate (res.1 - it.la_idx) BRepair.Shift
    if res.1 = it.la_idx + PARSE_AT_LEAST then
      .finish ⟨res.1, res.2.1, res.2.2, n_repairs⟩
    else
      match p.action (res.2.1.getLastD 0) (p.next_lexeme res.1).2 with
      | some .Accept => .finish ⟨res.1, res.2.1, res.2.2, n_repairs⟩
      | none =>
        if res.1 > it.la_idx then .enqueue ⟨res.1, res.2.1, res.2.2, n_repairs⟩
        else .drop
      | some _ => .drop
  else .drop

/-- One iteration of the baseline `recover` BFS loop: dequeue the head
tuple; prune it when the best finisher score is strictly below its score;
otherwise enqueue the ER1 and ER2 successors and dispatch on ER3, where a
finisher strictly better than the best observed score resets `finished`, and
otherwise is appended to it. -/
def bstep (p : BParser) (in_la_idx : Nat) (st : BState) : BState :=
  match st.todo with
  | [] => st
  | cur :: rest =>
    if pruneTest st.finished_score cur.repairs then
      { st with todo := rest }
    else
      let t2 := rest ++ er1 p cur ++ er2 p cur
      match er3 p in_la_idx cur with
      | .drop => { st with todo := t2 }
      | .enqueue it => { st with todo := t2 ++ [it] }
      | .finish it =>
        let s := score it.repairs
        match st.finished_score with
        | none => ⟨t2, [it], some s⟩
        | some fs =>
          if s < fs then ⟨t2, [it], some s⟩
          else ⟨t2, st.finished ++ [it], some fs⟩

/-- The baseline `recover` BFS loop, with explicit fuel; the loop always
terminates on real inputs (each enqueue strictly increases the bounded
measure inserts + deletes + lookahead), fuel makes this manifest. -/
def brun (p : BParser) (in_la_idx : Nat) : Nat → BState → BState
  | 0, st => st
  | fuel + 1, st =>
    match st.todo with
    | [] => st
    | _ :: _ => brun p in_la_idx fuel (bstep p in_la_idx st)

/-- The initial BFS state of the baseline `recover`:
`todo = [(in_la_idx, in_pstack, in_tstack, [])]`, nothing finished. -/
def bstart (in_la_idx : Nat) (in_pstack : PStack) (in_tstack : TStack) : BState :=
  ⟨[⟨in_la_idx, in_pstack, in_tstack, []⟩], [], none⟩

/-! ## C4: the pruning comparison -/

/-- C4 counterexample instance: a parser whose LR primitive never moves and
whose action table always answers `Accept`. -/
def c4Parser : BParser :=
  ⟨99, fun _ => [], fun _ => (⟨0, 0, 0⟩, 0),
   fun _ la _ ps ts => (la, ps, ts), fun _ _ => some .Accept, 0⟩

/-- C4 counterexample state: the head tuple's score equals the best
finisher score observed so far. -/
def c4State : BState :=
  ⟨[⟨0, [0], [], [BRepair.Delete]⟩], [], some 1⟩

/-- C4 is false as stated: a dequeued frontier item whose partial repair
cost EQUALS the best finisher score is not pruned — here it is processed and
even appends a new finisher, so the step does more than dequeue. -/
theorem c4_counterexample :
    score (BItem.mk 0 [0] [] [BRepair.Delete]).repairs = 1 ∧
    c4State.finished_score = some 1 ∧
    c4State.todo = [⟨0, [0], [], [BRepair.Delete]⟩] ∧
    bstep c4Parser 0 c4State ≠ { c4State with todo := [] } := by
  refine ⟨rfl, rfl, rfl, ?_⟩
  decide

/-- C4 amended: a dequeued frontier item is pruned — skipped without
generating any successors, the step only removing it from the queue — iff
its partial repair cost STRICTLY exceeds the best finisher score observed so
far. -/
theorem c4_prune_strict (p : BParser) (in_la_idx : Nat) (st : BState)
    (cur : BItem) (rest : List BItem) (b : Nat)
    (htodo : st.todo = cur :: rest) (hfs : st.finished_score = some b)
    (hgt : b < score cur.repairs) :
    bstep p in_la_idx st = { st with todo := rest } := by
  have hpr : pruneTest st.finished_score cur.repairs = true := by
    rw [hfs]
    simpa [pruneTest] using hgt
  unfold bstep
  rw [htodo]
  dsimp only
  rw [if_pos hpr]

/-- Witness for C4's amended theorem: a state whose head has score 2 against
a best score of 1 steps to a pure dequeue. -/
theorem c4_prune_strict_witness :
    bstep c4Parser 0 ⟨[⟨0, [0], [], [BRepair.Delete, BRepair.Delete]⟩], [], some 1⟩ =
      { todo := [], finished := [], finished_score := some 1 } :=
  c4_prune_strict c4Parser 0 _ _ [] 1 rfl rfl (by decide)

/-! ## Counting repairs, and what each successor rule appends -/

/-- Number of `Insert` repairs in a baseline repair sequence (the count ER1
guards with `INSERT_THRESHOLD`). -/
def numInserts (rs : List BRepair) : Nat :=
  (rs.filter fun r => match r with | .Insert _ => true | _ => false).length

/-- Number of `Delete` repairs in a baseline repair sequence (the count ER2
guards with `DELETE_THRESHOLD`). -/
def numDeletes (rs : List BRepair) : Nat :=
  (rs.filter fun r => match r with | .Delete => true | _ => false).length

lemma score_snoc_shift (rs : List BRepair) :
    score (rs ++ [BRepair.Shift]) = score rs := by
  simp [score, List.foldl_append]

lemma score_append_shifts (rs : List BRepair) (k : Nat) :
    score (rs ++ List.replicate k BRepair.Shift) = score rs := by
  induction k with
  | zero => simp
  | succ k ih =>
    rw [List.replicate_succ', ← List.append_assoc, score_snoc_shift]
    exact ih

lemma numInserts_snoc_insert (rs : List BRepair) (t : TIdx) :
    numInserts (rs ++ [BRepair.Insert t]) = numInserts rs + 1 := by
  simp [numInserts, List.filter_append]

lemma numInserts_snoc_delete (rs : List BRepair) :
    numInserts (rs ++ [BRepair.Delete]) = numInserts rs := by
  simp [numInserts, List.filter_append]

lemma numDeletes_snoc_insert (rs : List BRepair) (t : TIdx) :
    numDeletes (rs ++ [BRepair.Insert t]) = numDeletes rs := by
  simp [numDeletes, List.filter_append]

lemma numDeletes_snoc_delete (rs : List BRepair) :
    numDeletes (rs ++ [BRepair.Delete]) = numDeletes rs + 1 := by
  simp [numDeletes, List.filter_append]

lemma numInserts_snoc_shift (rs : List BRepair) :
    numInserts (rs ++ [BRepair.Shift]) = numInserts rs := by
  simp [numInserts, List.filter_append]

lemma numDeletes_snoc_shift (rs : List BRepair) :
    numDeletes (rs ++ [BRepair.Shift]) = numDeletes rs := by
  simp [numDeletes, List.filter_append]

lemma numInserts_append_shifts (rs : List BRepair) (k : Nat) :
    numInserts (rs ++ List.replicate k BRepair.Shift) = numInserts rs := by
  induction k with
  | zero => simp
  | succ k ih =>
    rw [List.replicate_succ', ← List.append_assoc, numInserts_snoc_shift]
    exact ih

lemma numDeletes_append_shifts (rs : List BRepair) (k : Nat) :
    numDeletes (rs ++ List.replicate k BRepair.Shift) = numDeletes rs := by
  induction k with
  | zero => simp
  | succ k ih =>
    rw [List.replicate_succ', ← List.append_assoc, numDeletes_snoc_shift]
    exact ih

lemma er1_mem {p : BParser} {it x : BItem} (hx : x ∈ er1 p it) :
    numInserts it.repairs ≤ INSERT_THRESHOLD ∧
    ∃ t, x.la_idx = it.la_idx ∧ x.repairs = it.repairs ++ [BRepair.Insert t] := by
  unfold er1 at hx
  split at hx
  · cases hx
  · dsimp only at hx
    split at hx
    · rename_i hcnt
      obtain ⟨sym, hsym, hmap⟩ := List.mem_filterMap.mp hx
      rcases sym with t | ridx
      · dsimp only at hmap
        split at hmap
        · cases hmap
        · split at hmap
          · injection hmap with hmap
            subst hmap
            exact ⟨hcnt, t, rfl, rfl⟩
          · cases hmap
      · cases hmap
    · cases hx

lemma er1_last_delete (p : BParser) (it : BItem)
    (h : it.repairs.getLast? = some BRepair.Delete) : er1 p it = [] := by
  unfold er1
  rw [h]

lemma er2_mem {p : BParser} {it x : BItem} (hx : x ∈ er2 p it) :
    it.la_idx < p.lexemes_len ∧ numDeletes it.repairs ≤ DELETE_THRESHOLD ∧
    x.la_idx = it.la_idx + 1 ∧ x.pstack = it.pstack ∧ x.tstack = it.tstack ∧
    x.repairs = it.repairs ++ [BRepair.Delete] := by
  unfold er2 at hx
  split at hx
  · rename_i hla
    dsimp only at hx
    split at hx
    · rename_i hcnt
      rcases List.mem_singleton.mp hx with hhd
      subst hhd
      exact ⟨hla, hcnt, rfl, rfl, rfl, rfl⟩
    · cases hx
  · cases hx

lemma er3_repairs {p : BParser} {in_la_idx : Nat} {it r : BItem}
    (h : er3 p in_la_idx it = .enqueue r ∨ er3 p in_la_idx it = .finish r) :
    ∃ k, r.repairs = it.repairs ++ List.replicate k BRepair.Shift := by
  unfold er3 at h
  dsimp only at h
  rcases h with h | h <;> [skip; skip] <;>
  · split at h
    · split at h
      · first
        | (cases h; exact ⟨_, rfl⟩)
        | cases h
      · split at h <;>
          first
          | (cases h; exact ⟨_, rfl⟩)
          | (split at h <;>
              first
              | (cases h; exact ⟨_, rfl⟩)
              | cases h)
          | cases h
    · cases h

/-- A per-item predicate holding of every tuple in the BFS state. -/
def itemInv (P : BItem → Prop) (st : BState) : Prop :=
  (∀ x ∈ st.todo, P x) ∧ (∀ x ∈ st.finished, P x)

lemma bstep_itemInv {P : BItem → Prop} {p : BParser} {in_la_idx : Nat} {st : BState}
    (h1 : ∀ it x, P it → x ∈ er1 p it → P x)
    (h2 : ∀ it x, P it → x ∈ er2 p it → P x)
    (h3 : ∀ it x, P it →
      (er3 p in_la_idx it = .enqueue x ∨ er3 p in_la_idx it = .finish x) → P x)
    (h : itemInv P st) : itemInv P (bstep p in_la_idx st) := by
  obtain ⟨ht, hf⟩ := h
  unfold bstep
  split
  · exact ⟨ht, hf⟩
  · rename_i cur rest htodo
    have hcur : P cur := ht cur (htodo ▸ List.mem_cons_self ..)
    have hrest : ∀ x ∈ rest, P x := fun x hx =>
      ht x (htodo ▸ List.mem_cons_of_mem _ hx)
    have ht2 : ∀ x ∈ rest ++ er1 p cur ++ er2 p cur, P x := by
      intro x hx
      rcases List.mem_append.mp hx with hx | hx
      · rcases List.mem_append.mp hx with hx | hx
        · exact hrest x hx
        · exact h1 cur x hcur hx
      · exact h2 cur x hcur hx
    split
    · exact ⟨hrest, hf⟩
    · split
      · exact ⟨ht2, hf⟩
      · rename_i r her3
        refine ⟨?_, ?_⟩
        · intro x hx
          rcases List.mem_append.mp hx with hx | hx
          · exact ht2 x hx
          · rcases List.mem_singleton.mp hx with rfl
            exact h3 cur x hcur (Or.inl her3)
        · exact hf
      · rename_i r her3
        have hr : P r := h3 cur r hcur (Or.inr her3)
        dsimp only
        split
        · exact ⟨ht2, by simpa using hr⟩
        · split
          · exact ⟨ht2, by simpa using hr⟩
          · refine ⟨ht2, ?_⟩
            intro x hx
            rcases List.mem_append.mp hx with hx | hx
            · exact hf x hx
            · rcases List.mem_singleton.mp hx with rfl
              exact hr

lemma brun_itemInv {P : BItem → Prop} {p : BParser} {q : Nat}
    (h1 : ∀ it x, P it → x ∈ er1 p it → P x)
    (h2 : ∀ it x, P it → x ∈ er2 p it → P x)
    (h3 : ∀ it x, P it →
      (er3 p q it = .enqueue x ∨ er3 p q it = .finish x) → P x) :
    ∀ fuel st, itemInv P st → itemInv P (brun p q fuel st) := by
  intro fuel
  induction fuel with
  | zero => exact fun st h => h
  | succ fuel ih =>
    intro st h
    unfold brun
    split
    · exact h
    · exact ih _ (bstep_itemInv h1 h2 h3 h)

/-! ## C7: the per-sequence insert/delete caps -/

/-- C7 counterexample instance: four deletable lexemes, no insertable
terminals, an LR primitive that never moves, and `Accept` exactly at EOF
(reached after deleting all four lexemes). -/
def c7Parser : BParser :=
  ⟨99, fun _ => [], fun la => (⟨1, la, 1⟩, if la = 4 then 99 else 1),
   fun _ la _ ps ts => (la, ps, ts),
   fun _ t => if t = 99 then some .Accept else none, 4⟩

/-- C7 is false as stated: running the baseline `recover` loop on the
counterexample instance returns a repair sequence containing FOUR `Delete`
repairs, exceeding `DELETE_THRESHOLD = 3` (the guard `num_deletes <=
DELETE_THRESHOLD` admits one more `Delete` beyond the threshold). -/
theorem c7_counterexample :
    ∃ x ∈ (brun c7Parser 0 10 (bstart 0 [0] [])).finished,
      ¬ numDeletes x.repairs ≤ DELETE_THRESHOLD := by
  decide

/-- C7 amended: every repair sequence in the baseline recoverer's output
(and indeed every tuple the search enqueues) contains at most
`INSERT_THRESHOLD + 1 = 5` `Insert` repairs and at most
`DELETE_THRESHOLD + 1 = 4` `Delete` repairs: the guards compare the count
BEFORE appending, so each cap is threshold plus one. -/
theorem c7_caps (p : BParser) (in_la_idx fuel : Nat)
    (in_pstack : PStack) (in_tstack : TStack) :
    ∀ x ∈ (brun p in_la_idx fuel (bstart in_la_idx in_pstack in_tstack)).finished,
      numInserts x.repairs ≤ INSERT_THRESHOLD + 1 ∧
      numDeletes x.repairs ≤ DELETE_THRESHOLD + 1 := by
  have key := brun_itemInv
    (P := fun it => numInserts it.repairs ≤ INSERT_THRESHOLD + 1 ∧
                    numDeletes it.repairs ≤ DELETE_THRESHOLD + 1)
    (p := p) (q := in_la_idx)
    (fun it x hP hx => by
      obtain ⟨hcnt, t, -, hrep⟩ := er1_mem hx
      rw [hrep, numInserts_snoc_insert, numDeletes_snoc_insert]
      exact ⟨by omega, hP.2⟩)
    (fun it x hP hx => by
      obtain ⟨-, hcnt, -, -, -, hrep⟩ := er2_mem hx
      rw [hrep, numInserts_snoc_delete, numDeletes_snoc_delete]
      exact ⟨hP.1, by omega⟩)
    (fun it x hP hx => by
      obtain ⟨k, hrep⟩ := er3_repairs hx
      rw [hrep, numInserts_append_shifts, numDeletes_append_shifts]
      exact hP)
    fuel (bstart in_la_idx in_pstack in_tstack)
    (by
      refine ⟨?_, by simp [bstart]⟩
      intro x hx
      rcases List.mem_singleton.mp (by simpa [bstart] using hx) with rfl
      simp [numInserts, numDeletes])
  exact key.2

/-- Witness for C7's amended theorem: on the counterexample instance the
returned four-delete sequence indeed stays within the real caps. -/
theorem c7_caps_witness :
    numInserts (BItem.mk 4 [0] []
        [BRepair.Delete, BRepair.Delete, BRepair.Delete, BRepair.Delete]).repairs
      ≤ INSERT_THRESHOLD + 1 ∧
    numDeletes (BItem.mk 4 [0] []
        [BRepair.Delete, BRepair.Delete, BRepair.Delete, BRepair.Delete]).repairs
      ≤ DELETE_THRESHOLD + 1 :=
  c7_caps c7Parser 0 10 [0] [] _ (by decide)

/-! ## C5: all returned tuples are equi-optimal and ties accumulate -/

/-- Observer on one loop iteration: the finisher (if any) discovered while
processing the head tuple — the same branch conditions as `bstep`, projected
onto the item pushed into `finished`. -/
def bstepFinisher (p : BParser) (in_la_idx : Nat) (st : BState) : Option BItem :=
  match st.todo with
  | [] => none
  | cur :: _ =>
    if pruneTest st.finished_score cur.repairs then none
    else
      match er3 p in_la_idx cur with
      | .finish it => some it
      | _ => none

/-- Observer over the whole run: all finishers discovered, in discovery
order. -/
def brunDisc (p : BParser) (in_la_idx : Nat) : Nat → BState → List BItem
  | 0, _ => []
  | fuel + 1, st =>
    match st.todo with
    | [] => []
    | _ :: _ =>
      (bstepFinisher p in_la_idx st).toList ++
        brunDisc p in_la_idx fuel (bstep p in_la_idx st)

/-- The loop invariant tying the best score, the `finished` list and the
finishers discovered so far: every finished tuple scores exactly the best
score, the best score is attained by some discovered finisher, no discovered
finisher beats it, and every discovered finisher attaining it is retained. -/
def INV5 (st : BState) (disc : List BItem) : Prop :=
  match st.finished_score with
  | none => st.finished = [] ∧ disc = []
  | some b =>
      (∀ x ∈ st.finished, score x.repairs = b) ∧
      (∃ f ∈ disc, score f.repairs = b) ∧
      (∀ f ∈ disc, b ≤ score f.repairs) ∧
      (∀ f ∈ disc, score f.repairs = b → f ∈ st.finished)

lemma er3_finish_score {p : BParser} {in_la_idx : Nat} {it r : BItem}
    (h : er3 p in_la_idx it = .finish r) : score r.repairs = score it.repairs := by
  obtain ⟨k, hrep⟩ := er3_repairs (Or.inr h)
  rw [hrep, score_append_shifts]

lemma bstep_INV5 {p : BParser} {q : Nat} {st : BState} {disc : List BItem}
    (h : INV5 st disc) :
    INV5 (bstep p q st) (disc ++ (bstepFinisher p q st).toList) := by
  rcases htodo : st.todo with _ | ⟨cur, rest⟩
  · unfold bstep bstepFinisher
    rw [htodo]
    simpa using h
  · unfold bstep bstepFinisher
    rw [htodo]
    dsimp only
    by_cases hpr : pruneTest st.finished_score cur.repairs = true
    · rw [if_pos hpr, if_pos hpr]
      simpa [INV5] using h
    · rw [if_neg hpr, if_neg hpr]
      rcases her3 : er3 p q cur with _ | it | it
      · simpa [INV5] using h
      · simpa [INV5] using h
      · -- a finisher was discovered
        have hsc : score it.repairs = score cur.repairs := er3_finish_score her3
        dsimp only
        rcases hfs : st.finished_score with _ | b
        · -- no previous best: reset to [it]
          unfold INV5 at h
          rw [hfs] at h
          dsimp only at h
          obtain ⟨-, hdisc⟩ := h
          subst hdisc
          unfold INV5
          dsimp only
          refine ⟨by simp, ⟨it, by simp⟩, by simp, by simp⟩
        · -- previous best b; the head passed the prune test, so its score
          -- (hence the finisher's) is at most b
          have hle : score it.repairs ≤ b := by
            rw [hsc]
            by_contra hgt
            refine hpr ?_
            simp only [pruneTest, hfs, decide_eq_true_eq]
            omega
          unfold INV5 at h
          rw [hfs] at h
          dsimp only at h
          obtain ⟨hall, ⟨g, hg, hgsc⟩, hmin, hret⟩ := h
          dsimp only
          by_cases hlt : score it.repairs < b
          · rw [if_pos hlt]
            unfold INV5
            dsimp only
            refine ⟨by simp, ⟨it, by simp⟩, ?_, ?_⟩
            · intro f hf
              rcases List.mem_append.mp hf with hf | hf
              · exact le_trans (le_of_lt hlt) (hmin f hf)
              · rcases List.mem_singleton.mp (by simpa using hf) with rfl
                exact le_refl _
            · intro f hf hfsc
              rcases List.mem_append.mp hf with hf | hf
              · exact absurd hfsc (by have := hmin f hf; omega)
              · rcases List.mem_singleton.mp (by simpa using hf) with rfl
                simp
          · rw [if_neg hlt]
            have heq : score it.repairs = b := by omega
            unfold INV5
            dsimp only
            refine ⟨?_, ⟨g, by simp [hg], hgsc⟩, ?_, ?_⟩
            · intro x hx
              rcases List.mem_append.mp hx with hx | hx
              · exact hall x hx
              · rcases List.mem_singleton.mp hx with rfl
                exact heq
            · intro f hf
              rcases List.mem_append.mp hf with hf | hf
              · exact hmin f hf
              · rcases List.mem_singleton.mp (by simpa using hf) with rfl
                exact le_of_eq heq.symm
            · intro f hf hfsc
              rcases List.mem_append.mp hf with hf | hf
              · exact List.mem_append.mpr (Or.inl (hret f hf hfsc))
              · rcases List.mem_singleton.mp (by simpa using hf) with rfl
                simp

lemma brun_INV5 {p : BParser} {q : Nat} :
    ∀ fuel (st : BState) (disc : List BItem), INV5 st disc →
      INV5 (brun p q fuel st) (disc ++ brunDisc p q fuel st) := by
  intro fuel
  induction fuel with
  | zero =>
    intro st disc h
    simpa [brun, brunDisc] using h
  | succ fuel ih =>
    intro st disc h
    unfold brun brunDisc
    rcases htodo : st.todo with _ | ⟨cur, rest⟩
    · simpa using h
    · dsimp only
      have hstep := bstep_INV5 (p := p) (q := q) h
      have hrec := ih (bstep p q st)
        (disc ++ (bstepFinisher p q st).toList) hstep
      simpa [List.append_assoc] using hrec

/-- C5: every tuple in the `finished` list produced by the baseline `recover`
loop has repair cost equal to the best (minimum) score over all finisher
nodes discovered during the search, the minimum is attained, and every
discovered finisher of minimal score is retained (ties accumulate). -/
theorem c5_optimal_ties (p : BParser) (in_la_idx fuel : Nat)
    (in_pstack : PStack) (in_tstack : TStack) :
    (∀ x ∈ (brun p in_la_idx fuel (bstart in_la_idx in_pstack in_tstack)).finished,
      ∃ b, (brun p in_la_idx fuel (bstart in_la_idx in_pstack in_tstack)).finished_score
             = some b ∧ score x.repairs = b) ∧
    (∀ b, (brun p in_la_idx fuel (bstart in_la_idx in_pstack in_tstack)).finished_score
            = some b →
      (∃ f ∈ brunDisc p in_la_idx fuel (bstart in_la_idx in_pstack in_tstack),
        score f.repairs = b) ∧
      (∀ f ∈ brunDisc p in_la_idx fuel (bstart in_la_idx in_pstack in_tstack),
        b ≤ score f.repairs) ∧
      (∀ f ∈ brunDisc p in_la_idx fuel (bstart in_la_idx in_pstack in_tstack),
        score f.repairs = b →
          f ∈ (brun p in_la_idx fuel (bstart in_la_idx in_pstack in_tstack)).finished)) ∧
    ((brun p in_la_idx fuel (bstart in_la_idx in_pstack in_tstack)).finished_score = none →
      (brun p in_la_idx fuel (bstart in_la_idx in_pstack in_tstack)).finished = []) := by
  have h0 : INV5 (bstart in_la_idx in_pstack in_tstack) [] := by
    unfold INV5 bstart
    exact ⟨rfl, rfl⟩
  have hinv := brun_INV5 (p := p) (q := in_la_idx) fuel _ [] h0
  rw [List.nil_append] at hinv
  unfold INV5 at hinv
  rcases hfs : (brun p in_la_idx fuel (bstart in_la_idx in_pstack in_tstack)).finished_score
    with _ | b
  · rw [hfs] at hinv
    dsimp only at hinv
    refine ⟨?_, ?_, ?_⟩
    · intro x hx
      rw [hinv.1] at hx
      cases hx
    · intro b hb
      cases hb
    · intro hn
      exact hinv.1
  · rw [hfs] at hinv
    dsimp only at hinv
    obtain ⟨hall, hex, hmin, hret⟩ := hinv
    refine ⟨fun x hx => ⟨b, rfl, hall x hx⟩, ?_, ?_⟩
    · intro b' hb'
      injection hb' with hb'
      subst hb'
      exact ⟨hex, hmin, hret⟩
    · intro hn
      cases hn

/-- Witness for C5: on the concrete four-delete instance, the discovered
finisher of minimal score 4 is retained in the returned list. -/
theorem c5_optimal_ties_witness :
    BItem.mk 4 [0] []
        [BRepair.Delete, BRepair.Delete, BRepair.Delete, BRepair.Delete]
      ∈ (brun c7Parser 0 10 (bstart 0 [0] [])).finished :=
  ((c5_optimal_ties c7Parser 0 10 [0] []).2.1 4 (by decide)).2.2 _
    (by decide) (by decide)

/-! ## Flattening merged histories (`CPCTPlus::collect_repairs`) -/

/-- The common step of `traverse`: append repair `r` to every parent
sequence, or start a fresh singleton when there are no parents. -/
def appendR (r : Repair) (parents : List (List Repair)) : List (List Repair) :=
  if parents.isEmpty then [[r]] else parents.map (· ++ [r])

-- The `traverse` closure inside `CPCTPlus::collect_repairs`: expand every
-- `Merge` into the union of its alternatives, producing concrete repair
-- sequences in root-to-top order.
mutual
/-- `traverse` on a history. -/
def travHist : Hist → List (List Repair)
  | .nil => []
  | .cons (.Repair r) tl => appendR r (travHist tl)
  | .cons (.Merge r alts) tl => appendR r (travHist tl) ++ travAlts alts
  | .cons .Terminator _ => []

/-- `traverse` mapped over a list of alternative histories. -/
def travAlts : HistList → List (List Repair)
  | .nil => []
  | .cons h tl => travHist h ++ travAlts tl
end

/-- The user-visible `ParseRepair` variant of the `cpctplus.rs` snapshot
(`InsertSeq` is reserved for other recoverers). -/
inductive ParseRepair where
  | Insert (t : TIdx)
  | InsertSeq (seqs : List (List TIdx))
  | Delete
  | Shift
deriving DecidableEq, Repr

/-- `CPCTPlus::repair_to_parse_repair`. -/
def repair_to_parse_repair (rs : List Repair) : List ParseRepair :=
  rs.map fun y =>
    match y with
    | .InsertTerm term_idx => ParseRepair.Insert term_idx
    | .Delete => ParseRepair.Delete
    | .Shift => ParseRepair.Shift

/-- `CPCTPlus::collect_repairs`: flatten each successful node's history into
its concrete repair sequences. -/
def collect_repairs (cnds : List PathFNode) : List (List (List ParseRepair)) :=
  cnds.map fun cnd => (travHist cnd.repairs).map repair_to_parse_repair

/-! ## `CPCTPlus::recover` and C10 -/

/-- The start node of `CPCTPlus::recover`: the incoming parse stack poured
into a cactus (top = head), lookahead at the error index, history a bare
`Terminator`, cost 0. -/
def startNodeOf (in_pstack : List StIdx) (in_la_idx : Nat) : PathFNode :=
  ⟨in_pstack.foldl (fun c st => st :: c) [], in_la_idx, .cons .Terminator .nil, 0⟩

/-- `CPCTPlus::recover`.  The collaborators that live outside the two source
files are taken as function arguments: `dij` is the `dijkstra` search
(module `astar`), `rnk` is `rank_cnds`, `smpl` is `simplify_repairs` and
`ap` is `apply_repairs` (module `mf`).  The mutable parse/tree stacks are
passed and returned explicitly; `ap` is the only argument that may change
them, and it is consulted only on the path that returns a non-empty ranked
candidate list. -/
def recover
    (dij : PathFNode → List PathFNode)
    (rnk : Nat → List StIdx → List (List (List ParseRepair)) → List (List ParseRepair))
    (smpl : List (List ParseRepair) → List (List ParseRepair))
    (ap : Nat → List StIdx → TStack → List ParseRepair → Nat × List StIdx × TStack)
    (in_la_idx : Nat) (in_pstack : List StIdx) (tstack : TStack) :
    Nat × List (List ParseRepair) × List StIdx × TStack :=
  let start_node := startNodeOf in_pstack in_la_idx
  let astar_cnds := dij start_node
  if astar_cnds.isEmpty then (in_la_idx, [], in_pstack, tstack)
  else
    let full_rprs := collect_repairs astar_cnds
    let rnk_rprs := rnk in_la_idx in_pstack full_rprs
    if rnk_rprs.isEmpty then (in_la_idx, [], in_pstack, tstack)
    else
      let simp_rprs := smpl rnk_rprs
      let res := ap in_la_idx in_pstack tstack (simp_rprs.headD [])
      (res.1, simp_rprs, res.2.1, res.2.2)

/-- C10: when the CPCT+ search yields no successful nodes, or when ranking
discards every candidate, `recover` returns the pair `(in_la_idx, [])` and
the caller's parse stack and tree stack are unchanged — replay is only
invoked on the branch with a non-empty ranked candidate list. -/
theorem c10_recover_failure
    (dij : PathFNode → List PathFNode)
    (rnk : Nat → List StIdx → List (List (List ParseRepair)) → List (List ParseRepair))
    (smpl : List (List ParseRepair) → List (List ParseRepair))
    (ap : Nat → List StIdx → TStack → List ParseRepair → Nat × List StIdx × TStack)
    (in_la_idx : Nat) (in_pstack : List StIdx) (tstack : TStack)
    (h : dij (startNodeOf in_pstack in_la_idx) = [] ∨
         rnk in_la_idx in_pstack
           (collect_repairs (dij (startNodeOf in_pstack in_la_idx))) = []) :
    recover dij rnk smpl ap in_la_idx in_pstack tstack =
      (in_la_idx, [], in_pstack, tstack) := by
  unfold recover
  dsimp only
  rcases h with h | h
  · rw [h]
    rfl
  · by_cases hd : (dij (startNodeOf in_pstack in_la_idx)).isEmpty
    · rw [if_pos hd]
    · rw [if_neg hd, h]
      rfl

/-- Witness for C10: with a search returning no successful nodes, `recover`
leaves the stacks alone and reports the original error index. -/
theorem c10_recover_failure_witness :
    recover (fun _ => []) (fun _ _ _ => [[ParseRepair.Delete]]) (fun x => x)
        (fun _ _ _ _ => (7, [9], [9])) 2 [3, 4] [5] = (2, [], [3, 4], [5]) :=
  c10_recover_failure _ _ _ _ 2 [3, 4] [5] (Or.inl rfl)

/-! ## C6: `Insert` never immediately follows `Delete` -/

/-- Is a CPCT+ repair an insertion? -/
def isIns : Repair → Bool
  | .InsertTerm _ => true
  | _ => false

/-- Is a baseline repair an insertion? -/
def isInsB : BRepair → Bool
  | .Insert _ => true
  | _ => false

/-- A CPCT+ repair sequence has no `Insert` immediately after a `Delete`. -/
def noDI (s : List Repair) : Prop :=
  List.Chain' (fun a b => a = Repair.Delete → isIns b = false) s

/-- A baseline repair sequence has no `Insert` immediately after a
`Delete`. -/
def noDIB (s : List BRepair) : Prop :=
  List.Chain' (fun a b => a = BRepair.Delete → isInsB b = false) s

lemma noDI_append {s : List Repair} {r : Repair} (hs : noDI s)
    (hlast : s.getLast? = some Repair.Delete → isIns r = false) :
    noDI (s ++ [r]) := by
  rw [noDI, List.chain'_append]
  refine ⟨hs, List.chain'_singleton _, ?_⟩
  intro x hx y hy hxd
  rcases List.mem_singleton.mp (by simpa using hy) with rfl
  subst hxd
  exact hlast (by simpa using hx)

lemma noDIB_append {s : List BRepair} {r : BRepair} (hs : noDIB s)
    (hlast : s.getLast? = some BRepair.Delete → isInsB r = false) :
    noDIB (s ++ [r]) := by
  rw [noDIB, List.chain'_append]
  refine ⟨hs, List.chain'_singleton _, ?_⟩
  intro x hx y hy hxd
  rcases List.mem_singleton.mp (by simpa using hy) with rfl
  subst hxd
  exact hlast (by simpa using hx)

lemma noDIB_append_shifts {s : List BRepair} (hs : noDIB s) (k : Nat) :
    noDIB (s ++ List.replicate k BRepair.Shift) := by
  induction k with
  | zero => simpa using hs
  | succ k ih =>
    rw [List.replicate_succ', ← List.append_assoc]
    exact noDIB_append ih (fun _ => rfl)

/-- Extract the delete-compatibility component of the merge equivalence:
equal nodes either both end their histories in `Delete` or neither does. -/
lemma eqPathFNode_delete_iff {a b : PathFNode} (h : eqPathFNode a b = true) :
    (lastRepairH a.repairs = some Repair.Delete ↔
     lastRepairH b.repairs = some Repair.Delete) := by
  by_cases hA : lastRepairH a.repairs = some Repair.Delete <;>
    by_cases hB : lastRepairH b.repairs = some Repair.Delete
  · simp [hA, hB]
  · exfalso
    unfold eqPathFNode at h
    split at h
    · cases h
    · rw [hA] at h
      rcases hB2 : lastRepairH b.repairs with _ | rb
      · rw [hB2] at h
        simp at h
      · cases rb
        · rw [hB2] at h
          simp at h
        · exact hB hB2
        · rw [hB2] at h
          simp at h
  · exfalso
    unfold eqPathFNode at h
    split at h
    · cases h
    · rw [hB] at h
      rcases hA2 : lastRepairH a.repairs with _ | ra
      · rw [hA2] at h
        simp at h
      · cases ra
        · rw [hA2] at h
          simp at h
        · exact hA hA2
        · rw [hA2] at h
          simp at h
  · simp [hA, hB]

/-- The invariant carried through the CPCT+ search for C6: every flattened
sequence of the node's history avoids a `Delete`-then-`Insert` pair, is
non-empty, and ends in `Delete` exactly when the history's last repair is a
`Delete` (so that the symmetry break survives merge expansion). -/
def GoodExp (h : Hist) : Prop :=
  ∀ s ∈ travHist h, noDI s ∧ s ≠ [] ∧
    (s.getLast? = some Repair.Delete ↔ lastRepairH h = some Repair.Delete)

lemma appendR_mem {r : Repair} {parents : List (List Repair)} {s : List Repair}
    (hs : s ∈ appendR r parents) :
    (parents = [] ∧ s = [r]) ∨ ∃ pc ∈ parents, s = pc ++ [r] := by
  unfold appendR at hs
  split at hs
  · rename_i hemp
    exact Or.inl ⟨List.isEmpty_iff.mp hemp, List.mem_singleton.mp hs⟩
  · right
    obtain ⟨pc, hpc, hpceq⟩ := List.mem_map.mp hs
    exact ⟨pc, hpc, hpceq.symm⟩

lemma goodExp_child {h : Hist} {r : Repair} (hg : GoodExp h)
    (hcond : isIns r = true → lastRepairH h ≠ some Repair.Delete) :
    GoodExp (.cons (.Repair r) h) := by
  intro s hs
  rw [show travHist (.cons (.Repair r) h) = appendR r (travHist h) from rfl] at hs
  rcases appendR_mem hs with ⟨-, rfl⟩ | ⟨pc, hpc, rfl⟩
  · refine ⟨List.chain'_singleton _, by simp, ?_⟩
    simp [lastRepairH]
  · obtain ⟨hnd, hne, hiff⟩ := hg pc hpc
    refine ⟨?_, by simp, ?_⟩
    · refine noDI_append hnd ?_
      intro hlast
      by_cases hins : isIns r = true
      · exact absurd (hiff.mp hlast) (hcond hins)
      · simpa using hins
    · rw [List.getLast?_concat]
      simp [lastRepairH]

lemma goodExp_merge_repair {r : Repair} {tl w : Hist}
    (hold : GoodExp (.cons (.Repair r) tl)) (hw : GoodExp w)
    (hdel : (lastRepairH w = some Repair.Delete) ↔ r = Repair.Delete) :
    GoodExp (.cons (.Merge r (.cons w .nil)) tl) := by
  intro s hs
  rw [show travHist (.cons (.Merge r (.cons w .nil)) tl) =
        appendR r (travHist tl) ++ (travHist w ++ []) from rfl] at hs
  rw [List.append_nil] at hs
  rcases List.mem_append.mp hs with hs | hs
  · obtain ⟨hnd, hne, hiff⟩ := hold s
      (by rw [show travHist (.cons (.Repair r) tl) = appendR r (travHist tl) from rfl]
          exact hs)
    exact ⟨hnd, hne, by simpa [lastRepairH] using hiff⟩
  · obtain ⟨hnd, hne, hiff⟩ := hw s hs
    refine ⟨hnd, hne, ?_⟩
    rw [hiff, hdel]
    simp [lastRepairH]

lemma goodExp_merge_extend {r : Repair} {v : HistList} {tl w : Hist}
    (hold : GoodExp (.cons (.Merge r v) tl)) (hw : GoodExp w)
    (hdel : (lastRepairH w = some Repair.Delete) ↔ r = Repair.Delete) :
    GoodExp (.cons (.Merge r (.cons w v)) tl) := by
  intro s hs
  rw [show travHist (.cons (.Merge r (.cons w v)) tl) =
        appendR r (travHist tl) ++ (travHist w ++ travAlts v) from rfl] at hs
  have hmem : s ∈ appendR r (travHist tl) ++ travAlts v ∨ s ∈ travHist w := by
    rcases List.mem_append.mp hs with hs | hs
    · exact Or.inl (List.mem_append.mpr (Or.inl hs))
    · rcases List.mem_append.mp hs with hs | hs
      · exact Or.inr hs
      · exact Or.inl (List.mem_append.mpr (Or.inr hs))
  rcases hmem with hs' | hs'
  · obtain ⟨hnd, hne, hiff⟩ := hold s
      (by rw [show travHist (.cons (.Merge r v) tl) =
                appendR r (travHist tl) ++ travAlts v from rfl]
          exact hs')
    exact ⟨hnd, hne, by simpa [lastRepairH] using hiff⟩
  · obtain ⟨hnd, hne, hiff⟩ := hw s hs'
    refine ⟨hnd, hne, ?_⟩
    rw [hiff, hdel]
    simp [lastRepairH]

/-- Every node reachable in the CPCT+ search satisfies the C6 invariant. -/
lemma reach_goodExp {p : CParser} {la0 : Nat} {st0 : List StIdx} {n : PathFNode}
    (hn : Reach p la0 st0 n) : GoodExp n.repairs := by
  induction hn with
  | start =>
    intro s hs
    simp [startNode, travHist] at hs
  | insertStep hn hnd hins hm ih =>
    obtain ⟨t, -, -, -, hrep⟩ := insertGo_mem hins hm
    rw [hrep]
    exact goodExp_child ih (fun _ => hnd)
  | deleteStep hn hdel hm ih =>
    obtain ⟨-, -, -, -, -, hrep⟩ := delete_mem hdel hm
    rw [hrep]
    refine goodExp_child ih (fun habs => ?_)
    simp [isIns] at habs
  | shiftStep hn hm ih =>
    rename_i n c n'
    obtain ⟨-, -, -, hrep⟩ := shift_mem hm
    by_cases hadv : (p.lr_cactus none n.la_idx (n.la_idx + 1) n.pstack).1 > n.la_idx
    · rw [hrep, if_pos hadv]
      refine goodExp_child ih (fun habs => ?_)
      simp [isIns] at habs
    · rw [hrep, if_neg hadv]
      exact ih
  | mergeStep hold hother heq hcf hmrg iho ihw =>
    rename_i old other m
    have hdel := eqPathFNode_delete_iff heq
    unfold mergeNodes at hmrg
    split at hmrg
    · cases hmrg
      exact iho
    · split at hmrg
      · rename_i r tl hrep
        cases hmrg
        refine goodExp_merge_repair (hrep ▸ iho) ihw ?_
        rw [← hdel, hrep]
        simp [lastRepairH]
      · rename_i r v tl hrep
        cases hmrg
        refine goodExp_merge_extend (hrep ▸ iho) ihw ?_
        rw [← hdel, hrep]
        simp [lastRepairH]
      · cases hmrg

lemma er1_not_after_delete {p : BParser} {it x : BItem} (hx : x ∈ er1 p it) :
    it.repairs.getLast? ≠ some BRepair.Delete := by
  intro hlast
  rw [er1_last_delete p it hlast] at hx
  cases hx

/-- C6: in no repair sequence produced by either recoverer does an `Insert`
appear immediately after a `Delete`: every flattening of a reachable CPCT+
node's (possibly merged) history avoids the pair, the baseline never
generates insert successors after a `Delete`, and every sequence the
baseline returns avoids the pair. -/
theorem c6_no_delete_then_insert :
    (∀ (p : CParser) (la0 : Nat) (st0 : List StIdx) (n : PathFNode),
      Reach p la0 st0 n → ∀ s ∈ travHist n.repairs, noDI s) ∧
    (∀ (p : BParser) (it : BItem),
      it.repairs.getLast? = some BRepair.Delete → er1 p it = []) ∧
    (∀ (p : BParser) (in_la_idx fuel : Nat) (in_pstack : PStack)
       (in_tstack : TStack),
      ∀ x ∈ (brun p in_la_idx fuel (bstart in_la_idx in_pstack in_tstack)).finished,
        noDIB x.repairs) := by
  refine ⟨fun p la0 st0 n hn s hs => (reach_goodExp hn s hs).1,
          er1_last_delete, ?_⟩
  intro p in_la_idx fuel in_pstack in_tstack
  have key := brun_itemInv (P := fun it => noDIB it.repairs)
    (p := p) (q := in_la_idx)
    (fun it x hP hx => by
      obtain ⟨-, t, -, hrep⟩ := er1_mem hx
      rw [hrep]
      exact noDIB_append hP (fun hlast => absurd hlast (er1_not_after_delete hx)))
    (fun it x hP hx => by
      obtain ⟨-, -, -, -, -, hrep⟩ := er2_mem hx
      rw [hrep]
      exact noDIB_append hP (fun _ => rfl))
    (fun it x hP hx => by
      obtain ⟨k, hrep⟩ := er3_repairs hx
      rw [hrep]
      exact noDIB_append_shifts hP k)
    fuel (bstart in_la_idx in_pstack in_tstack)
    (by
      refine ⟨?_, by simp [bstart]⟩
      intro x hx
      rcases List.mem_singleton.mp (by simpa [bstart] using hx) with rfl
      exact List.chain'_nil)
  exact key.2

/-- Witness for C6: the concrete sequence the four-delete baseline run
returns contains no `Delete`-then-`Insert` pair. -/
theorem c6_no_delete_then_insert_witness :
    noDIB (BItem.mk 4 [0] []
      [BRepair.Delete, BRepair.Delete, BRepair.Delete, BRepair.Delete]).repairs :=
  c6_no_delete_then_insert.2.2 c7Parser 0 10 [0] [] _ (by decide)

end Lrpar
